import Mathlib

/- Formal model of the container core of the Karte repository: the
   open-addressing hashmap (src/memory/hashmap.c), the growable vector
   (src/memory/vector.c) and the prime helpers from src/core/utils.c.
   Machine integers (size_t, u32) are modelled as Nat with explicit
   reduction modulo 2^64 resp. 2^32 where the C code can wrap.  Loops are
   modelled with explicit fuel (structural recursion), returning none when
   the fuel runs out; termination statements quantify over the fuel. -/

namespace Karte

/-- Modulus of the size_t type (64-bit). -/
def U64_MOD : ℕ := 2 ^ 64

/-- Modulus of the u32 type. -/
def U32_MOD : ℕ := 2 ^ 32

/-- Helper for floorSqrt: the largest k ≤ bound with k * k ≤ n, found by
    counting down from the bound. -/
def sqrtGo (n : ℕ) : ℕ → ℕ
  | 0 => 0
  | k + 1 => if (k + 1) * (k + 1) ≤ n then k + 1 else sqrtGo n k

/-- Integer square root, modelling the expression floor(sqrt((f64)value))
    used by IsPrime (src/core/utils.c line 196).  The double computation is
    exact for the u32 inputs the code passes, so the mathematical floor of
    the square root is the faithful denotation. -/
def floorSqrt (n : ℕ) : ℕ := sqrtGo n n

theorem sqrtGo_eq_min (n : ℕ) : ∀ k, sqrtGo n k = min (Nat.sqrt n) k := by
  intro k
  induction k with
  | zero => simp [sqrtGo]
  | succ k ih =>
    rw [sqrtGo]
    by_cases h : (k + 1) * (k + 1) ≤ n
    · have hle : k + 1 ≤ Nat.sqrt n := Nat.le_sqrt.mpr (by simpa [Nat.mul_comm] using h)
      simp [h, Nat.min_eq_right hle]
    · have hlt : Nat.sqrt n < k + 1 := by
        by_contra hc
        exact h (by simpa [Nat.mul_comm] using Nat.le_sqrt.mp (Nat.le_of_not_lt hc))
      have h1 : Nat.sqrt n ≤ k := Nat.lt_succ_iff.mp hlt
      simp [h, ih, Nat.min_eq_left h1, Nat.min_eq_left (Nat.le_succ_of_le h1)]

theorem floorSqrt_eq_sqrt (n : ℕ) : floorSqrt n = Nat.sqrt n := by
  rw [floorSqrt, sqrtGo_eq_min, Nat.min_eq_left (Nat.sqrt_le_self n)]

/-- IsPrime from src/core/utils.c lines 179-205, modelled with its quirks
    intact: 2 is reported composite (it falls into the value % 2 == 0
    branch before any special case for 2), and the trial-division loop
    runs i = 3, 5, 7, ... only while i < floor(sqrt(value)) - 1, so the
    divisors near the square root are never tested (e.g. 9 and 25 are
    reported prime).  The list [3, 5, ..] enumerates exactly the i the C
    loop visits, and List.all has the same early-exit semantics as the
    loop's return false. -/
def IsPrime (value : ℕ) : Bool :=
  if value < 2 then false
  else if value = 3 then true
  else if value % 2 = 0 then false
  else (List.range' 3 ((floorSqrt value - 3) / 2) 2).all fun i => decide (¬ value % i = 0)

/-- NextPrime search loop from src/core/utils.c lines 211-219, with
    structural fuel.  The C variable is a u32, so value++ wraps at 2^32;
    the canonical fuel 2^32 + 4 provably always suffices (after a wrap
    the search accepts at 3 at the latest, since IsPrime rejects 0, 1 and
    2), so the fuel-exhausted branch is dead. -/
def NextPrimeGo : ℕ → ℕ → ℕ
  | 0, value => value
  | fuel + 1, value =>
    if IsPrime value then value else NextPrimeGo fuel ((value + 1) % U32_MOD)

/-- NextPrime from src/core/utils.c: the first value accepted by IsPrime
    in the u32 sequence value, value+1, ..., wrapping past 2^32 - 1 to 0.
    The parameter is a u32, modelled by the entry reduction mod 2^32. -/
def NextPrime (value : ℕ) : ℕ := NextPrimeGo (U32_MOD + 4) (value % U32_MOD)

theorem IsPrime_three_le {v : ℕ} (h : IsPrime v = true) : 3 ≤ v := by
  rcases Nat.lt_or_ge v 3 with hv | hv
  · interval_cases v <;> simp [IsPrime, floorSqrt, sqrtGo] at h
  · exact hv

theorem IsPrime_of_prime {p : ℕ} (hp : p.Prime) (hp2 : p ≠ 2) : IsPrime p = true := by
  have h2 : 2 ≤ p := hp.two_le
  have h3 : 3 ≤ p := by omega
  by_cases hp3 : p = 3
  · subst hp3; rfl
  · have h5 : 5 ≤ p := by
      rcases Nat.lt_or_ge p 5 with h | h
      · interval_cases p
        · omega
        · exact absurd hp (by decide)
      · exact h
    have hodd : ¬ p % 2 = 0 := by
      intro h
      exact hp2 (hp.even_iff.mp (Nat.even_iff.mpr h))
    rw [IsPrime, if_neg (by omega), if_neg hp3, if_neg hodd]
    rw [List.all_eq_true]
    intro i hi
    rw [List.mem_range'] at hi
    obtain ⟨k, hk, hik⟩ := hi
    have h2n : (floorSqrt p - 3) / 2 * 2 ≤ floorSqrt p - 3 := Nat.div_mul_le_self _ 2
    have hsp : floorSqrt p ≤ p := by rw [floorSqrt_eq_sqrt]; exact Nat.sqrt_le_self p
    have hilt : i < p := by omega
    have hige : 2 ≤ i := by omega
    simp only [decide_eq_true_eq]
    intro hmod
    rcases (Nat.Prime.eq_one_or_self_of_dvd hp i (Nat.dvd_of_mod_eq_zero hmod)) with h1 | hself
    · omega
    · omega

theorem NextPrimeGo_spec {fuel v : ℕ} (hv : v < U32_MOD)
    (h : ∃ k, k < fuel ∧ IsPrime ((v + k) % U32_MOD) = true) :
    IsPrime (NextPrimeGo fuel v) = true ∧ NextPrimeGo fuel v < U32_MOD := by
  induction fuel generalizing v with
  | zero => obtain ⟨k, hk, _⟩ := h; omega
  | succ fuel ih =>
    rw [NextPrimeGo]
    by_cases hpv : IsPrime v = true
    · simp [hpv, hv]
    · rw [if_neg hpv]
      obtain ⟨k, hk, hkp⟩ := h
      have hk0 : k ≠ 0 := by
        rintro rfl
        rw [Nat.add_zero, Nat.mod_eq_of_lt hv] at hkp
        exact hpv hkp
      refine ih (Nat.mod_lt _ (by decide)) ⟨k - 1, by omega, ?_⟩
      rw [Nat.mod_add_mod, show v + 1 + (k - 1) = v + k by omega]
      exact hkp

theorem exists_IsPrime_wrap {v : ℕ} (hv : v < U32_MOD) :
    ∃ k, k < U32_MOD + 4 ∧ IsPrime ((v + k) % U32_MOD) = true := by
  refine ⟨U32_MOD - v + 3, by omega, ?_⟩
  rw [show v + (U32_MOD - v + 3) = U32_MOD + 3 by omega, Nat.add_mod_left]
  decide

theorem IsPrime_NextPrime (v : ℕ) : IsPrime (NextPrime v) = true :=
  (NextPrimeGo_spec (Nat.mod_lt _ (by decide))
    (exists_IsPrime_wrap (Nat.mod_lt _ (by decide)))).1

theorem NextPrime_lt (v : ℕ) : NextPrime v < U32_MOD :=
  (NextPrimeGo_spec (Nat.mod_lt _ (by decide))
    (exists_IsPrime_wrap (Nat.mod_lt _ (by decide)))).2

theorem three_le_NextPrime (v : ℕ) : 3 ≤ NextPrime v :=
  IsPrime_three_le (IsPrime_NextPrime v)

/-- As long as the search never has to wrap past the u32 maximum, the
    result is at least the start value.  Restricted to starts up to 2^31:
    Bertrand then puts a genuine odd prime, which IsPrime accepts,
    between the start and 2^32, so the search stops before wrapping. -/
theorem NextPrimeGo_no_wrap {fuel v : ℕ}
    (h : ∃ k, k < fuel ∧ v + k < U32_MOD ∧ IsPrime (v + k) = true) :
    v ≤ NextPrimeGo fuel v ∧ IsPrime (NextPrimeGo fuel v) = true := by
  induction fuel generalizing v with
  | zero => obtain ⟨k, hk, _⟩ := h; omega
  | succ fuel ih =>
    rw [NextPrimeGo]
    by_cases hpv : IsPrime v = true
    · simp [hpv]
    · rw [if_neg hpv]
      obtain ⟨k, hk, hklt, hkp⟩ := h
      have hk0 : k ≠ 0 := by
        rintro rfl
        rw [Nat.add_zero] at hkp
        exact hpv hkp
      rw [Nat.mod_eq_of_lt (by omega : v + 1 < U32_MOD)]
      have hrec := ih (v := v + 1)
        ⟨k - 1, by omega, by omega, by rw [show v + 1 + (k - 1) = v + k by omega]; exact hkp⟩
      exact ⟨by omega, hrec.2⟩

theorem le_NextPrime_of_le_half {v : ℕ} (hv : v ≤ 2 ^ 31) : v ≤ NextPrime v := by
  have hpow : (2 : ℕ) ^ 31 < U32_MOD := by decide
  have hvM : v < U32_MOD := by omega
  rw [NextPrime, Nat.mod_eq_of_lt hvM]
  rcases Nat.lt_or_ge v 5 with hsmall | hbig
  · interval_cases v <;> decide
  · obtain ⟨p, hp, hlt, hle⟩ := Nat.bertrand v (by omega)
    have hpM : p < U32_MOD := by
      rcases Nat.lt_or_eq_of_le (show p ≤ U32_MOD by
        have : 2 * v ≤ U32_MOD := by
          show 2 * v ≤ 2 ^ 32
          calc 2 * v ≤ 2 * 2 ^ 31 := by omega
            _ = 2 ^ 32 := by norm_num
        omega) with h | h
      · exact h
      · exact absurd (h ▸ hp) (by show ¬ Nat.Prime (2 ^ 32); norm_num)
    exact (NextPrimeGo_no_wrap
      ⟨p - v, by omega, by omega,
        by rw [show v + (p - v) = p by omega]; exact IsPrime_of_prime hp (by omega)⟩).1

/-- Modelled from the spec: VECTOR_INITIAL_CAPACITY.  The struct-based
    vector header that defines this constant and the Vector struct is not
    under src/ (only vector.c is); the spec fixes the minimum initial
    capacity at 4. -/
def VECTOR_INITIAL_CAPACITY : ℕ := 4

/-- The Vector struct: a capacity, an occupied count and the element
    buffer.  Element handles (void pointers) are modelled as Option ℕ,
    with none standing for NULL; the buffer list has length capacity. -/
structure Vector where
  capacity : ℕ
  size : ℕ
  data : List (Option ℕ)
deriving DecidableEq, Repr

/-- VectorCreate: capacity VECTOR_INITIAL_CAPACITY, size 0; Allocate is
    calloc, so the fresh buffer is all NULL. -/
def VectorCreate : Vector :=
  { capacity := VECTOR_INITIAL_CAPACITY
    size := 0
    data := List.replicate VECTOR_INITIAL_CAPACITY none }

/-- VectorResize (vector.c lines 46-62): no-op when the requested capacity
    is < 1; otherwise realloc to the exact capacity.  The model assumes
    realloc succeeds (its failure is an environment event the spec calls
    recoverable); realloc keeps the common prefix, and the fresh tail is
    modelled as NULL (in C it is indeterminate; no claim reads it). -/
def VectorResize (vec : Vector) (capacity : ℕ) : Vector :=
  if capacity < 1 then vec
  else
    { capacity := capacity
      size := vec.size
      data := vec.data.take capacity ++ List.replicate (capacity - vec.data.length) none }

/-- VectorPush (vector.c lines 69-77): double the capacity when full, then
    write at index size and increment size.  If the write would land
    outside the buffer (only possible from states no create/push sequence
    reaches, e.g. capacity 0), the C write is out of bounds: the model
    returns none for that undefined behaviour. -/
def VectorPush (vec : Vector) (x : Option ℕ) : Option Vector :=
  let vec := if vec.capacity = vec.size then VectorResize vec (vec.capacity * 2 % U64_MOD) else vec
  if vec.size < vec.data.length then
    some { vec with data := vec.data.set vec.size x, size := (vec.size + 1) % U64_MOD }
  else none

/-- The bounds test index > size - 1 shared by VectorSet, VectorAt and
    VectorDelete, with size_t wraparound: for size = 0 the C expression
    size - 1 is 2^64 - 1, so the test never fires. -/
def vecOutOfBounds (size index : ℕ) : Bool :=
  decide ((size + (U64_MOD - 1)) % U64_MOD < index)

/-- VectorSet (vector.c lines 83-92): bounds-checked overwrite.  none
    marks the undefined behaviour of a write outside the buffer (reachable
    only through the size = 0 wraparound of the bounds test). -/
def VectorSet (vec : Vector) (index : ℕ) (x : Option ℕ) : Option Vector :=
  if vecOutOfBounds vec.size index then some vec
  else if index < vec.data.length then some { vec with data := vec.data.set index x }
  else none

/-- Result of VectorAt: a handle read from the buffer, the logged bounds
    error returning NULL, or an out-of-buffer read (undefined behaviour,
    reachable only through the size = 0 wraparound of the bounds test). -/
inductive AtResult where
  | val (v : Option ℕ)
  | boundsErr
  | undefRead
deriving DecidableEq, Repr

/-- VectorAt (vector.c lines 98-107): bounds-checked read. -/
def VectorAt (vec : Vector) (index : ℕ) : AtResult :=
  if vecOutOfBounds vec.size index then AtResult.boundsErr
  else
    match vec.data.get? index with
    | some v => AtResult.val v
    | none => AtResult.undefRead

/-- The compaction loop of VectorDelete (vector.c lines 155-159), run n
    times from position i: data[i] = data[i+1]; data[i+1] = NULL. -/
def shiftIter : ℕ → ℕ → List (Option ℕ) → List (Option ℕ)
  | 0, _, l => l
  | n + 1, i, l => shiftIter n (i + 1) ((l.set i (l.getD (i + 1) none)).set (i + 1) none)

/-- VectorDelete (vector.c lines 145-167): bounds check, null the slot,
    run the compaction loop for size - 1 iterations from index 0 (the loop
    starts at 0, not at the deleted index), decrement size, then halve the
    capacity when 0 < size ≤ capacity / 4.  For size = 0 the bounds test
    wraps around and the loop bound size - 1 underflows to 2^64 - 1, an
    unbounded walk over the buffer: modelled as none (undefined
    behaviour). -/
def VectorDelete (vec : Vector) (index : ℕ) : Option Vector :=
  if vecOutOfBounds vec.size index then some vec
  else if vec.size = 0 then none
  else
    let d1 := shiftIter (vec.size - 1) 0 (vec.data.set index none)
    let v1 : Vector := { capacity := vec.capacity, size := vec.size - 1, data := d1 }
    some (if 0 < v1.size ∧ v1.size ≤ v1.capacity / 4 then VectorResize v1 (v1.capacity / 2) else v1)

/-- Constants from include/memory/hashmap.h lines 32-45. -/
def HASHMAP_INITIAL_BASE_SIZE : ℕ := 11

def HASHMAP_PRIME_1 : ℕ := 101

def HASHMAP_PRIME_2 : ℕ := 173

def HASHMAP_LOAD_INCREASE : ℕ := 70

def HASHMAP_LOAD_DECREASE : ℕ := 10

/-- Keys are C strings, modelled as their list of character codes
    (non-negative, as for the ASCII keys the program uses). -/
abbrev Key := List ℕ

/-- One slot of the records array: NULL, the HASHMAP_DELETED_ITEM sentinel
    (tombstone), or a pointer to a record holding a key-value pair.
    Values (void pointers) are modelled as ℕ. -/
inductive Slot where
  | empty
  | deleted
  | record (key : Key) (value : ℕ)
deriving DecidableEq, Repr

/-- The Hashmap struct (include/memory/hashmap.h lines 71-79); the free
    callback only releases payloads and does not influence the data the
    claims are about, so it is not carried. -/
structure Hashmap where
  base_size : ℕ
  size : ℕ
  count : ℕ
  records : List Slot
deriving DecidableEq, Repr

/-- The accumulation loop of HashFunction (hashmap.c lines 242-246):
    hash = (hash + prime^(length-1-i) * str[i]) % num_rec, left to right.
    The head of the remaining list cs has exponent cs.length - 1 ... for
    c :: cs the exponent is cs.length.  The C code computes the power in
    double precision and accumulates in i64; for the short ASCII keys the
    program hashes both are exact, so the integer denotation is used. -/
def hashLoop (prime m : ℕ) : Key → ℕ → ℕ
  | [], hash => hash
  | c :: cs, hash => hashLoop prime m cs ((hash + prime ^ cs.length * c) % m)

/-- HashFunction (hashmap.c lines 239-248). -/
def HashFunction (str : Key) (prime m : ℕ) : ℕ := hashLoop prime m str 0

/-- HashGet (hashmap.c lines 255-260): double hashing; a zero secondary
    hash is replaced by 1. -/
def HashGet (str : Key) (m : ℕ) (attempt : ℕ) : ℕ :=
  let hash_a := HashFunction str HASHMAP_PRIME_1 m
  let hash_b := HashFunction str HASHMAP_PRIME_2 m
  (hash_a + attempt * (if hash_b = 0 then 1 else hash_b)) % m

/-- HashmapCreate (hashmap.c lines 37-45): the actual size is
    NextPrime((u32)base_size); Allocate is calloc, so all slots start
    NULL.  The free-function argument is not carried (see Hashmap). -/
def HashmapCreate (base_size : ℕ) : Hashmap :=
  let size := NextPrime (base_size % U32_MOD)
  { base_size := base_size
    size := size
    count := 0
    records := List.replicate size Slot.empty }

/-- The slot the code reads at records[index]. -/
def slotAt (t : Hashmap) (index : ℕ) : Slot := t.records.getD index Slot.empty

/-- Tags for the mutually recursive hashmap operations; the shared fuel
    makes the recursion structural, so proofs can evaluate it. -/
inductive HCall where
  | ins (t : Hashmap) (key : Key) (value : ℕ)
  | insWalk (t : Hashmap) (key : Key) (value : ℕ) (index i : ℕ)
  | del (t : Hashmap) (key : Key)
  | delWalk (t : Hashmap) (key : Key) (index i : ℕ)
  | rsz (t : Hashmap) (base : ℕ)
  | fold (slots : List Slot) (acc : Hashmap)

/-- One fuel-indexed interpreter for HashmapInsert (hashmap.c 125-163),
    HashmapDelete (193-230), HashmapResize (93-118) and the record-copy
    loop inside HashmapResize (99-104), which mutually recurse in the C
    code (Insert and Delete call Resize; Resize re-inserts every live
    record).  none means the fuel ran out before the call returned.
    Faithful details: Insert walks attempts 0,1,2,... but Delete starts
    its counter at 0 and so probes attempt 0 twice; both walks hit the
    tombstone branch with continue, which re-runs the loop without
    advancing index or attempt; counts and the doubled base size wrap at
    2^64 (size_t). -/
def hrun : ℕ → HCall → Option Hashmap
  | 0, _ => none
  | fuel + 1, c =>
    match c with
    | HCall.ins t key value =>
      match (if HASHMAP_LOAD_INCREASE < t.count / t.size
             then hrun fuel (HCall.rsz t (t.base_size * 2 % U64_MOD))
             else some t) with
      | none => none
      | some t1 => hrun fuel (HCall.insWalk t1 key value (HashGet key t1.size 0) 1)
    | HCall.insWalk t key value index i =>
      match slotAt t index with
      | Slot.empty =>
        some { t with records := t.records.set index (Slot.record key value)
                      count := (t.count + 1) % U64_MOD }
      | Slot.deleted => hrun fuel (HCall.insWalk t key value index i)
      | Slot.record k _ =>
        if k = key then
          some { t with records := t.records.set index (Slot.record key value) }
        else hrun fuel (HCall.insWalk t key value (HashGet key t.size i) (i + 1))
    | HCall.del t key =>
      match (if t.count / t.size < HASHMAP_LOAD_DECREASE
             then hrun fuel (HCall.rsz t (t.base_size / 2))
             else some t) with
      | none => none
      | some t1 => hrun fuel (HCall.delWalk t1 key (HashGet key t1.size 0) 0)
    | HCall.delWalk t key index i =>
      match slotAt t index with
      | Slot.empty => some t
      | Slot.deleted => hrun fuel (HCall.delWalk t key index i)
      | Slot.record k _ =>
        if k = key then
          some { t with records := t.records.set index Slot.deleted
                        count := (t.count + (U64_MOD - 1)) % U64_MOD }
        else hrun fuel (HCall.delWalk t key (HashGet key t.size i) (i + 1))
    | HCall.rsz t base =>
      if base < HASHMAP_INITIAL_BASE_SIZE then some t
      else
        match hrun fuel (HCall.fold t.records (HashmapCreate base)) with
        | none => none
        | some nt =>
          some { base_size := nt.base_size, size := nt.size
                 count := nt.count, records := nt.records }
    | HCall.fold slots acc =>
      match slots with
      | [] => some acc
      | Slot.record k v :: rest =>
        match hrun fuel (HCall.ins acc k v) with
        | none => none
        | some acc2 => hrun fuel (HCall.fold rest acc2)
      | _ :: rest => hrun fuel (HCall.fold rest acc)

/-- HashmapInsert, fuel-indexed. -/
def HashmapInsert (fuel : ℕ) (t : Hashmap) (key : Key) (value : ℕ) : Option Hashmap :=
  hrun fuel (HCall.ins t key value)

/-- HashmapDelete, fuel-indexed. -/
def HashmapDelete (fuel : ℕ) (t : Hashmap) (key : Key) : Option Hashmap :=
  hrun fuel (HCall.del t key)

/-- HashmapResize, fuel-indexed. -/
def HashmapResize (fuel : ℕ) (t : Hashmap) (base : ℕ) : Option Hashmap :=
  hrun fuel (HCall.rsz t base)

/-- The probe walk of HashmapSearch (hashmap.c lines 171-191): tombstones
    are skipped correctly here (the comparison is guarded), the walk stops
    at the first NULL slot with the logged not-found result.  some none is
    the not-found NULL return; the outer none means the fuel ran out. -/
def searchWalk : ℕ → Hashmap → Key → ℕ → ℕ → Option (Option ℕ)
  | 0, _, _, _, _ => none
  | fuel + 1, t, key, index, i =>
    match slotAt t index with
    | Slot.empty => some none
    | Slot.deleted => searchWalk fuel t key (HashGet key t.size i) (i + 1)
    | Slot.record k v =>
      if k = key then some (some v)
      else searchWalk fuel t key (HashGet key t.size i) (i + 1)

/-- HashmapSearch, fuel-indexed: starts at attempt 0 with the counter at
    1. -/
def HashmapSearch (fuel : ℕ) (t : Hashmap) (key : Key) : Option (Option ℕ) :=
  searchWalk fuel t key (HashGet key t.size 0) 1

/-- The probe index the table t would examine for key at a given attempt. -/
def probeAt (t : Hashmap) (key : Key) (attempt : ℕ) : ℕ := HashGet key t.size attempt

theorem hashLoop_lt {m : ℕ} (hm : 0 < m) (prime : ℕ) :
    ∀ (str : Key) (h : ℕ), h < m → hashLoop prime m str h < m := by
  intro str
  induction str with
  | nil => intro h hh; simpa [hashLoop] using hh
  | cons c cs ih => intro h hh; exact ih _ (Nat.mod_lt _ hm)

theorem HashFunction_lt {m : ℕ} (hm : 0 < m) (str : Key) (prime : ℕ) :
    HashFunction str prime m < m :=
  hashLoop_lt hm prime str 0 hm

theorem HashGet_lt {m : ℕ} (hm : 0 < m) (str : Key) (attempt : ℕ) :
    HashGet str m attempt < m :=
  Nat.mod_lt _ hm

theorem probe_inj {m : ℕ} (hm : m.Prime) (str : Key) {a b : ℕ}
    (ha : a < m) (hb : b < m) (h : HashGet str m a = HashGet str m b) : a = b := by
  have hm0 : 0 < m := hm.pos
  have hm2 : 2 ≤ m := hm.two_le
  set hb2 := HashFunction str HASHMAP_PRIME_2 m with hhb2
  set step := if hb2 = 0 then 1 else hb2 with hstep
  have hstep_pos : 0 < step := by
    rw [hstep]; split
    · omega
    · rename_i hne; omega
  have hstep_lt : step < m := by
    rw [hstep]; split
    · omega
    · exact HashFunction_lt hm0 str HASHMAP_PRIME_2
  have hmod : Nat.ModEq m (HashFunction str HASHMAP_PRIME_1 m + a * step)
      (HashFunction str HASHMAP_PRIME_1 m + b * step) := h
  have hcop : Nat.gcd m step = 1 :=
    (Nat.Prime.coprime_iff_not_dvd hm).mpr (Nat.not_dvd_of_pos_of_lt hstep_pos hstep_lt)
  have hab : Nat.ModEq m a b :=
    Nat.ModEq.cancel_right_of_coprime hcop (Nat.ModEq.add_left_cancel' _ hmod)
  calc a = a % m := (Nat.mod_eq_of_lt ha).symm
    _ = b % m := hab
    _ = b := Nat.mod_eq_of_lt hb

theorem probe_surj {m : ℕ} (hm : m.Prime) (str : Key) {x : ℕ} (hx : x < m) :
    ∃ a, a < m ∧ HashGet str m a = x := by
  have hm0 : 0 < m := hm.pos
  haveI : NeZero m := ⟨hm0.ne.symm⟩
  let f : Fin m → Fin m := fun a => ⟨HashGet str m a.1, HashGet_lt hm0 str a.1⟩
  have hinj : Function.Injective f := by
    intro a b hab
    exact Fin.ext (probe_inj hm str a.2 b.2 (congrArg Fin.val hab))
  obtain ⟨a, hfa⟩ := (Finite.injective_iff_surjective.mp hinj) ⟨x, hx⟩
  exact ⟨a.1, a.2, congrArg Fin.val hfa⟩

/-- A slot holding a record whose key differs from the probed key: the
    collision walks of Insert and Delete step past exactly these. -/
def slotMismatch (s : Slot) (key : Key) : Bool :=
  match s with
  | Slot.record k _ => decide (¬ k = key)
  | _ => false

/-- A slot the Search walk steps past: a tombstone or a mismatched
    record. -/
def slotSkip (s : Slot) (key : Key) : Bool :=
  match s with
  | Slot.record k _ => decide (¬ k = key)
  | Slot.deleted => true
  | Slot.empty => false

theorem slotMismatch_iff {s : Slot} {key : Key} :
    slotMismatch s key = true ↔ ∃ k v, s = Slot.record k v ∧ ¬ k = key := by
  cases s with
  | empty => simp [slotMismatch]
  | deleted => simp [slotMismatch]
  | record k v =>
    simp only [slotMismatch, decide_eq_true_eq]
    constructor
    · intro h; exact ⟨k, v, rfl, h⟩
    · rintro ⟨k2, v2, heq, hne⟩; cases heq; exact hne

theorem insWalk_step_mismatch {t : Hashmap} {key : Key} {value index i fuel : ℕ}
    (h : slotMismatch (slotAt t index) key = true) :
    hrun (fuel + 1) (HCall.insWalk t key value index i)
      = hrun fuel (HCall.insWalk t key value (HashGet key t.size i) (i + 1)) := by
  obtain ⟨k, v, heq, hne⟩ := slotMismatch_iff.mp h
  simp [hrun, heq, hne]

theorem insWalk_step_empty {t : Hashmap} {key : Key} {value index i fuel : ℕ}
    (h : slotAt t index = Slot.empty) :
    hrun (fuel + 1) (HCall.insWalk t key value index i)
      = some { t with records := t.records.set index (Slot.record key value)
                      count := (t.count + 1) % U64_MOD } := by
  simp [hrun, h]

theorem insWalk_step_match {t : Hashmap} {key : Key} {value index i fuel : ℕ} {v : ℕ}
    (h : slotAt t index = Slot.record key v) :
    hrun (fuel + 1) (HCall.insWalk t key value index i)
      = some { t with records := t.records.set index (Slot.record key value) } := by
  simp [hrun, h]

theorem insWalk_deleted_none {t : Hashmap} {key : Key} {value index i : ℕ}
    (h : slotAt t index = Slot.deleted) :
    ∀ fuel, hrun fuel (HCall.insWalk t key value index i) = none := by
  intro fuel
  induction fuel with
  | zero => rfl
  | succ fuel ih => rw [show fuel + 1 = fuel + 1 from rfl]; simpa [hrun, h] using ih

theorem delWalk_step_mismatch {t : Hashmap} {key : Key} {index i fuel : ℕ}
    (h : slotMismatch (slotAt t index) key = true) :
    hrun (fuel + 1) (HCall.delWalk t key index i)
      = hrun fuel (HCall.delWalk t key (HashGet key t.size i) (i + 1)) := by
  obtain ⟨k, v, heq, hne⟩ := slotMismatch_iff.mp h
  simp [hrun, heq, hne]

theorem delWalk_step_empty {t : Hashmap} {key : Key} {index i fuel : ℕ}
    (h : slotAt t index = Slot.empty) :
    hrun (fuel + 1) (HCall.delWalk t key index i) = some t := by
  simp [hrun, h]

theorem delWalk_step_match {t : Hashmap} {key : Key} {index i fuel : ℕ} {v : ℕ}
    (h : slotAt t index = Slot.record key v) :
    hrun (fuel + 1) (HCall.delWalk t key index i)
      = some { t with records := t.records.set index Slot.deleted
                      count := (t.count + (U64_MOD - 1)) % U64_MOD } := by
  simp [hrun, h]

theorem delWalk_deleted_none {t : Hashmap} {key : Key} {index i : ℕ}
    (h : slotAt t index = Slot.deleted) :
    ∀ fuel, hrun fuel (HCall.delWalk t key index i) = none := by
  intro fuel
  induction fuel with
  | zero => rfl
  | succ fuel ih => simpa [hrun, h] using ih

theorem searchWalk_step_skip {t : Hashmap} {key : Key} {index i fuel : ℕ}
    (h : slotSkip (slotAt t index) key = true) :
    searchWalk (fuel + 1) t key index i
      = searchWalk fuel t key (HashGet key t.size i) (i + 1) := by
  cases hs : slotAt t index with
  | empty => rw [hs] at h; simp [slotSkip] at h
  | deleted => simp [searchWalk, hs]
  | record k v =>
    rw [hs] at h
    simp only [slotSkip, decide_eq_true_eq] at h
    simp [searchWalk, hs, h]

theorem searchWalk_step_empty {t : Hashmap} {key : Key} {index i fuel : ℕ}
    (h : slotAt t index = Slot.empty) :
    searchWalk (fuel + 1) t key index i = some none := by
  simp [searchWalk, h]

theorem searchWalk_step_match {t : Hashmap} {key : Key} {index i fuel : ℕ} {v : ℕ}
    (h : slotAt t index = Slot.record key v) :
    searchWalk (fuel + 1) t key index i = some (some v) := by
  simp [searchWalk, h]

theorem insWalk_reach {t : Hashmap} {key : Key} {w j : ℕ}
    (H : ∀ jj, jj < j → slotMismatch (slotAt t (probeAt t key jj)) key = true) :
    ∀ d a fuel, a + d = j →
      hrun (d + fuel) (HCall.insWalk t key w (probeAt t key a) (a + 1))
        = hrun fuel (HCall.insWalk t key w (probeAt t key j) (j + 1)) := by
  intro d
  induction d with
  | zero =>
    intro a fuel ha
    simp only [Nat.add_zero] at ha
    subst ha
    rw [Nat.zero_add]
  | succ d ih =>
    intro a fuel ha
    have hmm : slotMismatch (slotAt t (probeAt t key a)) key = true := H a (by omega)
    rw [show d + 1 + fuel = d + fuel + 1 by omega, insWalk_step_mismatch hmm]
    exact ih (a + 1) fuel (by omega)

theorem delWalk_reach {t : Hashmap} {key : Key} {j : ℕ}
    (H : ∀ jj, jj < j → slotMismatch (slotAt t (probeAt t key jj)) key = true) :
    ∀ d a fuel, a + d = j →
      hrun (d + fuel) (HCall.delWalk t key (probeAt t key a) (a + 1))
        = hrun fuel (HCall.delWalk t key (probeAt t key j) (j + 1)) := by
  intro d
  induction d with
  | zero =>
    intro a fuel ha
    simp only [Nat.add_zero] at ha
    subst ha
    rw [Nat.zero_add]
  | succ d ih =>
    intro a fuel ha
    have hmm : slotMismatch (slotAt t (probeAt t key a)) key = true := H a (by omega)
    rw [show d + 1 + fuel = d + fuel + 1 by omega, delWalk_step_mismatch hmm]
    exact ih (a + 1) fuel (by omega)

theorem searchWalk_reach {t : Hashmap} {key : Key} {j : ℕ}
    (H : ∀ jj, jj < j → slotSkip (slotAt t (probeAt t key jj)) key = true) :
    ∀ d a fuel, a + d = j →
      searchWalk (d + fuel) t key (probeAt t key a) (a + 1)
        = searchWalk fuel t key (probeAt t key j) (j + 1) := by
  intro d
  induction d with
  | zero =>
    intro a fuel ha
    simp only [Nat.add_zero] at ha
    subst ha
    rw [Nat.zero_add]
  | succ d ih =>
    intro a fuel ha
    have hmm : slotSkip (slotAt t (probeAt t key a)) key = true := H a (by omega)
    rw [show d + 1 + fuel = d + fuel + 1 by omega, searchWalk_step_skip hmm]
    exact ih (a + 1) fuel (by omega)

theorem ins_step_noResize {t : Hashmap} {key : Key} {value fuel : ℕ}
    (h : t.count / t.size ≤ HASHMAP_LOAD_INCREASE) :
    hrun (fuel + 1) (HCall.ins t key value)
      = hrun fuel (HCall.insWalk t key value (probeAt t key 0) 1) := by
  simp [hrun, Nat.not_lt.mpr h, probeAt]

theorem rsz_small {t : Hashmap} {base fuel : ℕ} (h : base < HASHMAP_INITIAL_BASE_SIZE) :
    hrun (fuel + 1) (HCall.rsz t base) = some t := by
  simp [hrun, h]

theorem del_step_bind {t : Hashmap} {key : Key} {fuel : ℕ} :
    hrun (fuel + 1) (HCall.del t key)
      = match (if t.count / t.size < HASHMAP_LOAD_DECREASE
               then hrun fuel (HCall.rsz t (t.base_size / 2))
               else some t) with
        | none => none
        | some t1 => hrun fuel (HCall.delWalk t1 key (HashGet key t1.size 0) 0) := rfl

/-- The pre-walk shrink attempt of HashmapDelete is the identity whenever
    either the load test fails or the halved base size falls under the
    initial base size. -/
theorem del_step_walk {t : Hashmap} {key : Key} {fuel : ℕ}
    (h : t.base_size / 2 < HASHMAP_INITIAL_BASE_SIZE ∨ HASHMAP_LOAD_DECREASE ≤ t.count / t.size) :
    hrun (fuel + 2) (HCall.del t key)
      = hrun (fuel + 1) (HCall.delWalk t key (probeAt t key 0) 0) := by
  rw [show fuel + 2 = (fuel + 1) + 1 from rfl, del_step_bind]
  rcases h with h | h
  · by_cases hload : t.count / t.size < HASHMAP_LOAD_DECREASE
    · rw [if_pos hload, rsz_small h]
      rfl
    · rw [if_neg hload]
      rfl
  · rw [if_neg (Nat.not_lt.mpr h)]
    rfl

theorem slotAt_set_self {l : List Slot} {i : ℕ} {s : Slot} (h : i < l.length) :
    (l.set i s).getD i Slot.empty = s := by
  simp [List.getD_eq_getElem?_getD, List.getElem?_set, h]

theorem slotAt_set_ne {l : List Slot} {i j : ℕ} {s : Slot} (h : ¬ i = j) :
    (l.set i s).getD j Slot.empty = l.getD j Slot.empty := by
  simp [List.getD_eq_getElem?_getD, List.getElem?_set, h]

theorem slotAt_mem {t : Hashmap} {i : ℕ} (h : i < t.records.length) :
    slotAt t i ∈ t.records := by
  rw [slotAt, List.getD_eq_getElem?_getD, List.getElem?_eq_getElem h]
  exact List.getElem_mem h

theorem mem_slot_exists {t : Hashmap} {s : Slot} (h : s ∈ t.records) :
    ∃ i, i < t.records.length ∧ slotAt t i = s := by
  obtain ⟨i, hi, hget⟩ := List.mem_iff_getElem.mp h
  exact ⟨i, hi, by rw [slotAt, List.getD_eq_getElem?_getD, List.getElem?_eq_getElem hi]; simpa⟩

theorem insWalk_tomb_none {t : Hashmap} {key : Key} {value j : ℕ}
    (H : ∀ jj, jj < j → slotMismatch (slotAt t (probeAt t key jj)) key = true)
    (hdel : slotAt t (probeAt t key j) = Slot.deleted) :
    ∀ fuel a, a ≤ j → hrun fuel (HCall.insWalk t key value (probeAt t key a) (a + 1)) = none := by
  intro fuel
  induction fuel with
  | zero => intro a _; rfl
  | succ fuel ih =>
    intro a ha
    rcases Nat.lt_or_ge a j with hlt | hge
    · rw [insWalk_step_mismatch (H a hlt)]
      exact ih (a + 1) hlt
    · have haj : a = j := by omega
      subst haj
      exact insWalk_deleted_none hdel (fuel + 1)

theorem delWalk_tomb_none {t : Hashmap} {key : Key} {j : ℕ}
    (H : ∀ jj, jj < j → slotMismatch (slotAt t (probeAt t key jj)) key = true)
    (hdel : slotAt t (probeAt t key j) = Slot.deleted) :
    ∀ fuel a, a ≤ j → hrun fuel (HCall.delWalk t key (probeAt t key a) (a + 1)) = none := by
  intro fuel
  induction fuel with
  | zero => intro a _; rfl
  | succ fuel ih =>
    intro a ha
    rcases Nat.lt_or_ge a j with hlt | hge
    · rw [delWalk_step_mismatch (H a hlt)]
      exact ih (a + 1) hlt
    · have haj : a = j := by omega
      subst haj
      exact delWalk_deleted_none hdel (fuel + 1)

theorem delWalk_tomb_none_start {t : Hashmap} {key : Key} {j : ℕ}
    (H : ∀ jj, jj < j → slotMismatch (slotAt t (probeAt t key jj)) key = true)
    (hdel : slotAt t (probeAt t key j) = Slot.deleted) :
    ∀ fuel, hrun fuel (HCall.delWalk t key (probeAt t key 0) 0) = none := by
  intro fuel
  cases fuel with
  | zero => rfl
  | succ fuel =>
    rcases Nat.eq_zero_or_pos j with rfl | hj
    · exact delWalk_deleted_none hdel (fuel + 1)
    · rw [delWalk_step_mismatch (H 0 hj)]
      exact delWalk_tomb_none H hdel fuel 0 (Nat.zero_le j)

theorem insert_tomb_none {t : Hashmap} {key : Key} {value j : ℕ}
    (Hload : t.count / t.size ≤ HASHMAP_LOAD_INCREASE)
    (H : ∀ jj, jj < j → slotMismatch (slotAt t (probeAt t key jj)) key = true)
    (hdel : slotAt t (probeAt t key j) = Slot.deleted) :
    ∀ fuel, HashmapInsert fuel t key value = none := by
  intro fuel
  cases fuel with
  | zero => rfl
  | succ fuel =>
    rw [HashmapInsert, ins_step_noResize Hload]
    exact insWalk_tomb_none H hdel fuel 0 (Nat.zero_le j)

theorem delete_tomb_none {t : Hashmap} {key : Key} {j : ℕ}
    (Hpre : t.base_size / 2 < HASHMAP_INITIAL_BASE_SIZE ∨ HASHMAP_LOAD_DECREASE ≤ t.count / t.size)
    (H : ∀ jj, jj < j → slotMismatch (slotAt t (probeAt t key jj)) key = true)
    (hdel : slotAt t (probeAt t key j) = Slot.deleted) :
    ∀ fuel, HashmapDelete fuel t key = none := by
  intro fuel
  match fuel with
  | 0 => rfl
  | 1 =>
    rw [HashmapDelete, del_step_bind]
    by_cases hload : t.count / t.size < HASHMAP_LOAD_DECREASE
    · rw [if_pos hload]
      rfl
    · rw [if_neg hload]
      rfl
  | fuel + 2 =>
    rw [HashmapDelete, del_step_walk Hpre]
    exact delWalk_tomb_none_start H hdel (fuel + 1)

theorem slotSkip_of_mismatch {s : Slot} {key : Key} (h : slotMismatch s key = true) :
    slotSkip s key = true := by
  obtain ⟨k, v, rfl, hne⟩ := slotMismatch_iff.mp h
  simpa [slotSkip] using hne

/-- The slot kinds at which the Insert walk stops: an empty slot or a
    record with the probed key. -/
def insStop (s : Slot) (key : Key) : Bool :=
  match s with
  | Slot.empty => true
  | Slot.deleted => false
  | Slot.record k _ => decide (k = key)

/-- Whether a slot holds a record with the probed key. -/
def slotHasKey (s : Slot) (key : Key) : Bool :=
  match s with
  | Slot.record k _ => decide (k = key)
  | _ => false

theorem search_found {t : Hashmap} {key : Key} {v : ℕ} {j : ℕ}
    (Hskip : ∀ jj, jj < j → slotSkip (slotAt t (probeAt t key jj)) key = true)
    (Hrec : slotAt t (probeAt t key j) = Slot.record key v) :
    HashmapSearch (j + 1) t key = some (some v) := by
  rw [HashmapSearch]
  have hreach := searchWalk_reach Hskip j 0 1 (by omega)
  rw [Nat.zero_add] at hreach
  rw [show HashGet key t.size 0 = probeAt t key 0 from rfl, show (1 : ℕ) = 0 + 1 from rfl,
    hreach]
  exact searchWalk_step_match Hrec

theorem search_miss {t : Hashmap} {key : Key} {j : ℕ}
    (Hskip : ∀ jj, jj < j → slotSkip (slotAt t (probeAt t key jj)) key = true)
    (Hemp : slotAt t (probeAt t key j) = Slot.empty) :
    HashmapSearch (j + 1) t key = some none := by
  rw [HashmapSearch]
  have hreach := searchWalk_reach Hskip j 0 1 (by omega)
  rw [Nat.zero_add] at hreach
  rw [show HashGet key t.size 0 = probeAt t key 0 from rfl, show (1 : ℕ) = 0 + 1 from rfl,
    hreach]
  exact searchWalk_step_empty Hemp

/-- The Insert walk on a probe prefix of mismatched records ending in a
    record with the probed key: the update branch fires, the record is
    replaced and count stays unchanged. -/
theorem insert_update {t : Hashmap} {key : Key} {value j v0 : ℕ}
    (Hload : t.count / t.size ≤ HASHMAP_LOAD_INCREASE)
    (Hpre : ∀ jj, jj < j → slotMismatch (slotAt t (probeAt t key jj)) key = true)
    (Hrec : slotAt t (probeAt t key j) = Slot.record key v0) :
    HashmapInsert (j + 2) t key value
      = some { t with records := t.records.set (probeAt t key j) (Slot.record key value) } := by
  rw [HashmapInsert, show j + 2 = (j + 1) + 1 from rfl, ins_step_noResize Hload]
  have hreach := insWalk_reach (w := value) Hpre j 0 1 (by omega)
  rw [Nat.zero_add] at hreach
  rw [show (1 : ℕ) = 0 + 1 from rfl, hreach]
  exact insWalk_step_match Hrec

/-- The Insert walk on a probe prefix of mismatched records ending in an
    empty slot: the new record is placed there and count is bumped. -/
theorem insert_place {t : Hashmap} {key : Key} {value j : ℕ}
    (Hload : t.count / t.size ≤ HASHMAP_LOAD_INCREASE)
    (Hpre : ∀ jj, jj < j → slotMismatch (slotAt t (probeAt t key jj)) key = true)
    (Hemp : slotAt t (probeAt t key j) = Slot.empty) :
    HashmapInsert (j + 2) t key value
      = some { t with records := t.records.set (probeAt t key j) (Slot.record key value)
                      count := (t.count + 1) % U64_MOD } := by
  rw [HashmapInsert, show j + 2 = (j + 1) + 1 from rfl, ins_step_noResize Hload]
  have hreach := insWalk_reach (w := value) Hpre j 0 1 (by omega)
  rw [Nat.zero_add] at hreach
  rw [show (1 : ℕ) = 0 + 1 from rfl, hreach]
  exact insWalk_step_empty Hemp

/-- On a table with no tombstone and at least one empty slot (and prime
    size), the Insert probe walk stops at a least attempt j, which is
    either an empty slot or a record with the probed key. -/
theorem insert_stop_exists {t : Hashmap} (key : Key)
    (Hprime : t.size.Prime)
    (Hlen : t.records.length = t.size)
    (Hnotomb : Slot.deleted ∉ t.records)
    (Hempty : Slot.empty ∈ t.records) :
    ∃ j, j < t.size ∧
      (∀ jj, jj < j → slotMismatch (slotAt t (probeAt t key jj)) key = true) ∧
      (slotAt t (probeAt t key j) = Slot.empty ∨
        ∃ v0, slotAt t (probeAt t key j) = Slot.record key v0) := by
  have hm0 : 0 < t.size := Hprime.pos
  obtain ⟨x, hxlen, hxslot⟩ := mem_slot_exists Hempty
  obtain ⟨a, halt, haeq⟩ := probe_surj Hprime key (x := x) (Hlen ▸ hxlen)
  have haeq2 : probeAt t key a = x := haeq
  have hstopa : insStop (slotAt t (probeAt t key a)) key = true := by
    rw [haeq2, hxslot]
    rfl
  have hex : ∃ i, insStop (slotAt t (probeAt t key i)) key = true := ⟨a, hstopa⟩
  refine ⟨Nat.find hex, ?_, ?_, ?_⟩
  · exact Nat.lt_of_le_of_lt (Nat.find_min' hex hstopa) halt
  · intro jj hjj
    have hnostop := Nat.find_min hex hjj
    cases hs : slotAt t (probeAt t key jj) with
    | empty => rw [hs] at hnostop; simp [insStop] at hnostop
    | deleted =>
      exact absurd (hs ▸ slotAt_mem (by rw [Hlen]; exact HashGet_lt hm0 key jj)) Hnotomb
    | record k v =>
      rw [hs] at hnostop
      simp only [insStop, decide_eq_true_eq] at hnostop
      simp [slotMismatch, hs, hnostop]
  · have hstop := Nat.find_spec hex
    cases hs : slotAt t (probeAt t key (Nat.find hex)) with
    | empty => exact Or.inl rfl
    | deleted => rw [hs] at hstop; simp [insStop] at hstop
    | record k v =>
      rw [hs] at hstop
      simp only [insStop, decide_eq_true_eq] at hstop
      exact Or.inr ⟨v, by rw [hstop]⟩

/-- Searching a table in which the slot at probe attempt j has just been
    set to a record with the probed key, while all earlier probe slots are
    mismatched records, finds that record. -/
theorem search_after_set {t : Hashmap} {key : Key} {value j c : ℕ}
    (Hprime : t.size.Prime) (Hlen : t.records.length = t.size) (hj : j < t.size)
    (Hpre : ∀ jj, jj < j → slotMismatch (slotAt t (probeAt t key jj)) key = true) :
    HashmapSearch (j + 1)
      { t with records := t.records.set (probeAt t key j) (Slot.record key value)
               count := c } key
      = some (some value) := by
  have hm0 : 0 < t.size := Hprime.pos
  apply search_found (v := value)
  · intro jj hjj
    have hne : ¬ probeAt t key j = probeAt t key jj := by
      intro he
      exact Nat.ne_of_lt hjj (probe_inj Hprime key (Nat.lt_trans hjj hj) hj he.symm)
    show slotSkip ((t.records.set (probeAt t key j)
      (Slot.record key value)).getD (probeAt t key jj) Slot.empty) key = true
    rw [slotAt_set_ne hne]
    exact slotSkip_of_mismatch (Hpre jj hjj)
  · show (t.records.set (probeAt t key j)
      (Slot.record key value)).getD (probeAt t key j) Slot.empty = Slot.record key value
    exact slotAt_set_self (by rw [Hlen]; exact HashGet_lt hm0 key j)

/-- Fresh table as produced by HashmapCreate(11): actual size 11, all
    slots NULL. -/
def cleanTable : Hashmap :=
  { base_size := 11, size := 11, count := 0
    records := List.replicate 11 Slot.empty }

/-- The table reached by Create(11); Insert("a", 1); Delete("a"): the
    probe slot of "a" (index 9) holds a tombstone. -/
def tombTable : Hashmap :=
  { base_size := 11, size := 11, count := 0
    records := (List.replicate 11 Slot.empty).set 9 Slot.deleted }

theorem tombTable_reachable :
    (do
      let t1 ← HashmapInsert 20 (HashmapCreate 11) [97] 1
      HashmapDelete 20 t1 [97]) = some tombTable := by decide

/-- C1, counterexample: on the reachable table tombTable (whose slot at
    probe attempt 0 of key "a" is a tombstone), HashmapInsert of "a" never
    terminates, so no amount of fuel produces a table in which the search
    returns the inserted value: the unrestricted round-trip claim is
    false. -/
theorem C1_counterexample : ¬ ∃ t2,
    (∃ fuel, HashmapInsert fuel tombTable [97] 2 = some t2)
    ∧ (∃ fuel, HashmapSearch fuel t2 [97] = some (some 2)) := by
  rintro ⟨t2, ⟨fuel, hins⟩, _⟩
  rw [insert_tomb_none (j := 0) (by decide)
    (fun jj h => absurd h (Nat.not_lt_zero jj)) (by decide) fuel] at hins
  exact Option.noConfusion hins

/-- C1 (amended): for every table with prime size, a records array of
    that length, no tombstone, at least one empty slot and a load check
    that does not trigger the (dead) growth resize, HashmapInsert of any
    key and value terminates, and an immediate HashmapSearch for that key
    returns exactly that value. -/
theorem C1_round_trip_amended {t : Hashmap} {key : Key} {value : ℕ}
    (Hprime : t.size.Prime)
    (Hlen : t.records.length = t.size)
    (Hnotomb : Slot.deleted ∉ t.records)
    (Hempty : Slot.empty ∈ t.records)
    (Hload : t.count / t.size ≤ HASHMAP_LOAD_INCREASE) :
    ∃ t2, (∃ fuel, HashmapInsert fuel t key value = some t2)
      ∧ (∃ fuel, HashmapSearch fuel t2 key = some (some value)) := by
  obtain ⟨j, hj, Hpre, hcase⟩ := insert_stop_exists key Hprime Hlen Hnotomb Hempty
  rcases hcase with hemp | ⟨v0, hrec⟩
  · exact ⟨_, ⟨j + 2, insert_place Hload Hpre hemp⟩,
      ⟨j + 1, search_after_set Hprime Hlen hj Hpre⟩⟩
  · exact ⟨_, ⟨j + 2, insert_update Hload Hpre hrec⟩,
      ⟨j + 1, search_after_set (c := t.count) Hprime Hlen hj Hpre⟩⟩

/-- Witness for C1_round_trip_amended: the fresh base-11 table with key
    "a" and value 5. -/
theorem C1_round_trip_amended_witness :
    (Nat.Prime cleanTable.size ∧ cleanTable.records.length = cleanTable.size
      ∧ Slot.deleted ∉ cleanTable.records ∧ Slot.empty ∈ cleanTable.records
      ∧ cleanTable.count / cleanTable.size ≤ HASHMAP_LOAD_INCREASE)
    ∧ ∃ t2, (∃ fuel, HashmapInsert fuel cleanTable [97] 5 = some t2)
      ∧ (∃ fuel, HashmapSearch fuel t2 [97] = some (some 5)) :=
  ⟨⟨by show Nat.Prime 11; norm_num, by decide, by decide, by decide, by decide⟩,
    C1_round_trip_amended (by show Nat.Prime 11; norm_num) (by decide) (by decide)
      (by decide) (by decide)⟩

/-- The table reached by Create(11); Insert("a",1); Insert("l",2);
    Delete("a"): key "l" (code 108) sits at slot 7, while its probe slot
    at attempt 0 (index 9) holds a tombstone. -/
def tombRecTable : Hashmap :=
  { base_size := 11, size := 11, count := 1
    records := ((List.replicate 11 Slot.empty).set 9 Slot.deleted).set 7
      (Slot.record [108] 2) }

theorem tombRecTable_reachable :
    (do
      let t1 ← HashmapInsert 20 (HashmapCreate 11) [97] 1
      let t2 ← HashmapInsert 20 t1 [108] 2
      HashmapDelete 20 t2 [97]) = some tombRecTable := by decide

/-- C6, counterexample: tombRecTable contains key "l" (at slot 7), but
    inserting "l" again walks into the tombstone at its first probe slot
    and never terminates, so no update happens. -/
theorem C6_counterexample :
    slotAt tombRecTable 7 = Slot.record [108] 2 ∧
    ¬ ∃ t2, ∃ fuel, HashmapInsert fuel tombRecTable [108] 3 = some t2 := by
  refine ⟨by decide, ?_⟩
  rintro ⟨t2, fuel, hins⟩
  rw [insert_tomb_none (j := 0) (by decide)
    (fun jj h => absurd h (Nat.not_lt_zero jj)) (by decide) fuel] at hins
  exact Option.noConfusion hins

/-- C6 (amended): if the probe walk for key meets only mismatched records
    (no tombstone) up to an attempt j whose slot holds a record with that
    key, and the (dead) growth-resize check does not fire, then
    HashmapInsert replaces the stored value in place and leaves count,
    size and base size unchanged: an update, not a duplicate insert. -/
theorem C6_update_amended {t : Hashmap} {key : Key} {value j w : ℕ}
    (Hload : t.count / t.size ≤ HASHMAP_LOAD_INCREASE)
    (Hpre : ∀ jj, jj < j → slotMismatch (slotAt t (probeAt t key jj)) key = true)
    (Hrec : slotAt t (probeAt t key j) = Slot.record key w) :
    ∃ t2, (∃ fuel, HashmapInsert fuel t key value = some t2)
      ∧ t2.count = t.count ∧ t2.size = t.size ∧ t2.base_size = t.base_size
      ∧ t2.records = t.records.set (probeAt t key j) (Slot.record key value) :=
  ⟨_, ⟨j + 2, insert_update Hload Hpre Hrec⟩, rfl, rfl, rfl, rfl⟩

/-- Table with a single record for key "a" at its probe slot 9. -/
def oneRecTable : Hashmap :=
  { base_size := 11, size := 11, count := 1
    records := (List.replicate 11 Slot.empty).set 9 (Slot.record [97] 7) }

/-- Witness for C6_update_amended: updating key "a" on oneRecTable. -/
theorem C6_update_amended_witness :
    (oneRecTable.count / oneRecTable.size ≤ HASHMAP_LOAD_INCREASE
      ∧ slotAt oneRecTable (probeAt oneRecTable [97] 0) = Slot.record [97] 7)
    ∧ ∃ t2, (∃ fuel, HashmapInsert fuel oneRecTable [97] 9 = some t2)
      ∧ t2.count = oneRecTable.count ∧ t2.size = oneRecTable.size
      ∧ t2.base_size = oneRecTable.base_size
      ∧ t2.records = oneRecTable.records.set (probeAt oneRecTable [97] 0)
          (Slot.record [97] 9) :=
  ⟨⟨by decide, by decide⟩,
    C6_update_amended (w := 7) (j := 0) (by decide)
      (fun jj h => absurd h (Nat.not_lt_zero jj)) (by decide)⟩

/-- C9 (confirmed): the probe index for attempt a is
    (hash_a + a * hash_b') mod m, where hash_b' substitutes 1 for a zero
    hash_b; and for prime m, distinct attempts below m yield distinct
    probe indices, so the first m attempts visit every slot. -/
theorem C9_probe_complete (str : Key) {m : ℕ} (hm : m.Prime) :
    (∀ a, HashGet str m a
        = (HashFunction str HASHMAP_PRIME_1 m
            + a * (if HashFunction str HASHMAP_PRIME_2 m = 0 then 1
                   else HashFunction str HASHMAP_PRIME_2 m)) % m)
    ∧ ∀ a b, a < m → b < m → ¬ a = b → ¬ HashGet str m a = HashGet str m b :=
  ⟨fun _ => rfl, fun _ _ ha hb hne he => hne (probe_inj hm str ha hb he)⟩

/-- Witness for C9_probe_complete: key "a", table size 11, attempts 1 and
    2. -/
theorem C9_probe_complete_witness :
    Nat.Prime 11
    ∧ HashGet [97] 11 0 = (HashFunction [97] HASHMAP_PRIME_1 11
        + 0 * (if HashFunction [97] HASHMAP_PRIME_2 11 = 0 then 1
               else HashFunction [97] HASHMAP_PRIME_2 11)) % 11
    ∧ ¬ HashGet [97] 11 1 = HashGet [97] 11 2 :=
  ⟨by norm_num, (C9_probe_complete [97] (by norm_num)).1 0,
   (C9_probe_complete [97] (by norm_num)).2 1 2 (by norm_num) (by norm_num) (by norm_num)⟩

/-- A base-22 table (actual size 23) whose slot at probe attempt 0 of key
    "a" (index 5) is a tombstone. -/
def bigTombTable : Hashmap :=
  { base_size := 22, size := 23, count := 0
    records := (List.replicate 23 Slot.empty).set 5 Slot.deleted }

/-- C10, counterexample: bigTombTable satisfies the claim's hypothesis
    (the probe walk for "a" reaches a tombstone before any empty slot or
    match), yet HashmapDelete terminates: its pre-walk shrink check fires
    (0/23 < 10) with halved base 11 ≥ the initial base size, so the table
    is rebuilt without tombstones before the walk runs. -/
theorem C10_counterexample :
    slotAt bigTombTable (probeAt bigTombTable [97] 0) = Slot.deleted ∧
    HashmapDelete 60 bigTombTable [97] = some cleanTable := by decide

/-- C10 (amended): the tombstone branch of both collision walks re-runs
    the loop without advancing the probe index or the attempt counter;
    whenever the probe walk reaches a tombstone before an empty slot or a
    matching key, and the pre-walk resize does not rebuild the table first
    (for Insert: load check count/size ≤ 70; for Delete: halved base size
    below the initial base size, or load check count/size ≥ 10), the
    operation returns under no amount of fuel: it does not terminate. -/
theorem C10_tombstone_nontermination {t : Hashmap} {key : Key} {w j : ℕ}
    (Htomb : slotAt t (probeAt t key j) = Slot.deleted)
    (Hpre : ∀ jj, jj < j → slotMismatch (slotAt t (probeAt t key jj)) key = true) :
    (t.count / t.size ≤ HASHMAP_LOAD_INCREASE →
       ∀ fuel, HashmapInsert fuel t key w = none)
    ∧ ((t.base_size / 2 < HASHMAP_INITIAL_BASE_SIZE
          ∨ HASHMAP_LOAD_DECREASE ≤ t.count / t.size) →
       ∀ fuel, HashmapDelete fuel t key = none) :=
  ⟨fun hl => insert_tomb_none hl Hpre Htomb,
   fun hp => delete_tomb_none hp Hpre Htomb⟩

/-- Witness for C10_tombstone_nontermination: tombTable with key "a" at
    fuel 25. -/
theorem C10_tombstone_nontermination_witness :
    slotAt tombTable (probeAt tombTable [97] 0) = Slot.deleted
    ∧ HashmapInsert 25 tombTable [97] 5 = none
    ∧ HashmapDelete 25 tombTable [97] = none :=
  ⟨by decide,
   (C10_tombstone_nontermination (w := 5) (j := 0) (by decide)
     (fun jj h => absurd h (Nat.not_lt_zero jj))).1 (by decide) 25,
   (C10_tombstone_nontermination (w := 5) (j := 0) (by decide)
     (fun jj h => absurd h (Nat.not_lt_zero jj))).2 (by decide) 25⟩

/-- The Delete walk on a probe prefix of mismatched records ending in a
    record with the probed key: the record slot becomes a tombstone and
    count is decremented (with size_t wraparound). -/
theorem delete_found {t : Hashmap} {key : Key} {j v0 : ℕ}
    (Hpre2 : t.base_size / 2 < HASHMAP_INITIAL_BASE_SIZE
      ∨ HASHMAP_LOAD_DECREASE ≤ t.count / t.size)
    (Hpre : ∀ jj, jj < j → slotMismatch (slotAt t (probeAt t key jj)) key = true)
    (Hrec : slotAt t (probeAt t key j) = Slot.record key v0) :
    HashmapDelete (j + 3) t key
      = some { t with records := t.records.set (probeAt t key j) Slot.deleted
                      count := (t.count + (U64_MOD - 1)) % U64_MOD } := by
  rw [HashmapDelete, show j + 3 = (j + 1) + 2 from rfl, del_step_walk Hpre2]
  cases j with
  | zero => exact delWalk_step_match Hrec
  | succ j0 =>
    rw [delWalk_step_mismatch (i := 0) (Hpre 0 (Nat.succ_pos j0))]
    have hreach := delWalk_reach Hpre (j0 + 1) 0 1 (by omega)
    rw [Nat.zero_add] at hreach
    exact hreach.trans (delWalk_step_match Hrec)

/-- After the slot of key at probe attempt j is replaced by a tombstone,
    a search for key walks to the first empty probe slot and reports
    not-found, provided key occurred nowhere else. -/
theorem search_miss_after_delete {t : Hashmap} {key : Key} {j v0 c : ℕ}
    (Hprime : t.size.Prime) (Hlen : t.records.length = t.size)
    (Hrec : slotAt t (probeAt t key j) = Slot.record key v0)
    (Huniq : ∀ i, i < t.records.length → ¬ i = probeAt t key j →
      slotHasKey (slotAt t i) key = false)
    (Hempty : Slot.empty ∈ t.records) :
    ∃ fuel, HashmapSearch fuel
      { t with records := t.records.set (probeAt t key j) Slot.deleted
               count := c } key
      = some none := by
  have hm0 : 0 < t.size := Hprime.pos
  obtain ⟨x, hxlen, hxslot⟩ := mem_slot_exists Hempty
  have hxp : ¬ probeAt t key j = x := by
    intro he
    rw [← he] at hxslot
    rw [Hrec] at hxslot
    exact Slot.noConfusion hxslot
  have hx2 : (t.records.set (probeAt t key j) Slot.deleted).getD x Slot.empty
      = Slot.empty := by
    rw [slotAt_set_ne hxp]
    exact hxslot
  obtain ⟨a, halt, haeq⟩ := probe_surj Hprime key (x := x) (Hlen ▸ hxlen)
  have hex : ∃ i, (t.records.set (probeAt t key j) Slot.deleted).getD
      (probeAt t key i) Slot.empty = Slot.empty :=
    ⟨a, by rw [show probeAt t key a = x from haeq]; exact hx2⟩
  refine ⟨Nat.find hex + 1, search_miss ?_ ?_⟩
  · intro jj hjj
    have hnemp := Nat.find_min hex hjj
    show slotSkip ((t.records.set (probeAt t key j) Slot.deleted).getD
      (probeAt t key jj) Slot.empty) key = true
    cases hs : (t.records.set (probeAt t key j) Slot.deleted).getD
        (probeAt t key jj) Slot.empty with
    | empty => exact absurd hs hnemp
    | deleted => rfl
    | record k v =>
      have hqlt : probeAt t key jj < t.records.length := by
        rw [Hlen]; exact HashGet_lt hm0 key jj
      have hqp : ¬ probeAt t key jj = probeAt t key j := by
        intro he
        rw [he, slotAt_set_self (by rw [Hlen]; exact HashGet_lt hm0 key j)] at hs
        exact Slot.noConfusion hs
      rw [slotAt_set_ne (fun he => hqp he.symm)] at hs
      have hkey := Huniq (probeAt t key jj) hqlt hqp
      rw [slotAt, hs] at hkey
      simp only [slotHasKey, decide_eq_false_iff_not] at hkey
      simpa [slotSkip] using hkey
  · show (t.records.set (probeAt t key j) Slot.deleted).getD
      (probeAt t key (Nat.find hex)) Slot.empty = Slot.empty
    exact Nat.find_spec hex

/-- C5, counterexample: tombRecTable contains key "l" (at slot 7), but
    deleting "l" walks into the tombstone at its first probe slot and
    never terminates (the shrink attempt is a no-op since 11/2 = 5 < 11),
    so the deletion postcondition cannot be met. -/
theorem C5_counterexample :
    slotAt tombRecTable 7 = Slot.record [108] 2 ∧
    ¬ ∃ t2, ∃ fuel, HashmapDelete fuel tombRecTable [108] = some t2 := by
  refine ⟨by decide, ?_⟩
  rintro ⟨t2, fuel, hdel⟩
  rw [delete_tomb_none (j := 0) (Or.inl (by decide))
    (fun jj h => absurd h (Nat.not_lt_zero jj)) (by decide) fuel] at hdel
  exact Option.noConfusion hdel

/-- C5 (amended): for a table with prime size, records array of that
    length, base size below 22 (so the unconditional shrink attempt is a
    no-op), a positive count below 2^64, in which key occurs exactly at
    probe attempt j with only mismatched records on the earlier probe
    slots and at least one empty slot, HashmapDelete terminates, count
    drops by exactly one, and a subsequent HashmapSearch reports
    not-found. -/
theorem C5_delete_amended {t : Hashmap} {key : Key} {j w : ℕ}
    (Hprime : t.size.Prime)
    (Hlen : t.records.length = t.size)
    (Hbase : t.base_size < 2 * HASHMAP_INITIAL_BASE_SIZE)
    (Hcnt1 : 1 ≤ t.count) (HcntW : t.count < U64_MOD)
    (Hrec : slotAt t (probeAt t key j) = Slot.record key w)
    (Hpre : ∀ jj, jj < j → slotMismatch (slotAt t (probeAt t key jj)) key = true)
    (Huniq : ∀ i, i < t.records.length → ¬ i = probeAt t key j →
      slotHasKey (slotAt t i) key = false)
    (Hempty : Slot.empty ∈ t.records) :
    ∃ t2, (∃ fuel, HashmapDelete fuel t key = some t2)
      ∧ t2.count = t.count - 1
      ∧ (∃ fuel, HashmapSearch fuel t2 key = some none) := by
  refine ⟨_, ⟨j + 3, delete_found (Or.inl (by omega)) Hpre Hrec⟩, ?_, ?_⟩
  · show (t.count + (U64_MOD - 1)) % U64_MOD = t.count - 1
    have hW : 0 < U64_MOD := by decide
    have hsplit : t.count + (U64_MOD - 1) = U64_MOD + (t.count - 1) := by omega
    rw [hsplit, Nat.add_mod_left, Nat.mod_eq_of_lt (by omega)]
  · exact search_miss_after_delete Hprime Hlen Hrec Huniq Hempty

/-- Witness for C5_delete_amended: deleting key "a" from oneRecTable. -/
theorem C5_delete_amended_witness :
    (Nat.Prime oneRecTable.size ∧ slotAt oneRecTable (probeAt oneRecTable [97] 0)
        = Slot.record [97] 7 ∧ 1 ≤ oneRecTable.count)
    ∧ ∃ t2, (∃ fuel, HashmapDelete fuel oneRecTable [97] = some t2)
      ∧ t2.count = oneRecTable.count - 1
      ∧ (∃ fuel, HashmapSearch fuel t2 [97] = some none) :=
  ⟨⟨by show Nat.Prime 11; norm_num, by decide, by decide⟩,
    C5_delete_amended (w := 7) (j := 0) (by show Nat.Prime 11; norm_num) (by decide)
      (by decide) (by decide) (by decide) (by decide)
      (fun jj h => absurd h (Nat.not_lt_zero jj)) (by decide) (by decide)⟩

/-- A base-22 table (actual size 23) holding five records for the
    single-character keys a, b, c, d, e at their probe slots; the load
    factor is 5/23, about 22 percent. -/
def midLoadTable : Hashmap :=
  { base_size := 22, size := 23, count := 5
    records := (((((List.replicate 23 Slot.empty).set 5 (Slot.record [97] 1)).set 6
      (Slot.record [98] 2)).set 8 (Slot.record [100] 4)).set 9
      (Slot.record [101] 5)).set 7 (Slot.record [99] 3) }

/-- C2: evaluation of the spec's concrete scenario, showing the integer
    load check never fires on growth and almost always fires on shrink.
    First conjunct: after eight inserts into a fresh base-11 table the
    integer load count/size is 8/11 = 0, never above 70, so no resize
    happens and the actual size stays 11 (the claim expects 23).  Second
    conjunct: deleting from midLoadTable (load about 22 percent, well
    above the claimed 10 percent threshold) still triggers the shrink
    resize (0 < 10), rebuilding to actual size 11. -/
theorem C2_load_factor_evaluation :
    ((do
      let t1 ← HashmapInsert 20 (HashmapCreate 11) [97] 1
      let t2 ← HashmapInsert 20 t1 [98] 2
      let t3 ← HashmapInsert 20 t2 [99] 3
      let t4 ← HashmapInsert 20 t3 [100] 4
      let t5 ← HashmapInsert 20 t4 [101] 5
      let t6 ← HashmapInsert 20 t5 [102] 6
      let t7 ← HashmapInsert 20 t6 [103] 7
      let t8 ← HashmapInsert 20 t7 [104] 8
      pure (t8.size, t8.count)) = some (11, 8))
    ∧ ((HashmapDelete 200 midLoadTable [99]).map
        (fun t => (t.size, t.base_size, t.count)) = some (11, 11, 4)) := by
  decide

/-- C3: evaluation of VectorDelete at the failing input: deleting index 1
    from the two-element vector [10, 20] (reached by two pushes).  The
    compaction loop starts at index 0 instead of the deleted index, so
    the surviving element 10 is destroyed: the result holds [NULL] (and
    the shrink then halves capacity to 2), not the claimed [10]. -/
theorem C3_delete_order_evaluation :
    ((do
      let v1 ← VectorPush VectorCreate (some 10)
      let v2 ← VectorPush v1 (some 20)
      VectorDelete v2 1)
      = some { capacity := 2, size := 1, data := [none, none] })
    ∧ ¬ ({ capacity := 2, size := 1, data := [none, none] } : Vector).data.getD 0 none
        = some 10 := by
  decide

/-- C7: evaluation of VectorAt.  On a non-empty vector the bounds
    contract holds (in-range reads return the handle, out-of-range
    indices give the bounds error), but on the empty vector the unsigned
    size - 1 underflows to 2^64 - 1, the check passes for every index,
    and the buffer is read: VectorAt(create, 0) returns the (NULL)
    content of slot 0 instead of reporting the bounds error. -/
theorem C7_bounds_evaluation :
    VectorAt VectorCreate 0 = AtResult.val none
    ∧ ¬ VectorAt VectorCreate 0 = AtResult.boundsErr
    ∧ VectorAt { capacity := 4, size := 2, data := [some 10, some 20, none, none] } 1
        = AtResult.val (some 20)
    ∧ VectorAt { capacity := 4, size := 2, data := [some 10, some 20, none, none] } 2
        = AtResult.boundsErr
    ∧ VectorAt { capacity := 4, size := 2, data := [some 10, some 20, none, none] } 5
        = AtResult.boundsErr := by
  decide

theorem insWalk_step_deleted {t : Hashmap} {key : Key} {value index i fuel : ℕ}
    (h : slotAt t index = Slot.deleted) :
    hrun (fuel + 1) (HCall.insWalk t key value index i)
      = hrun fuel (HCall.insWalk t key value index i) := by
  simp [hrun, h]

/-- The Insert walk never changes size or base size, and bumps count at
    most once. -/
theorem insWalk_fields {t : Hashmap} {key : Key} {value : ℕ} :
    ∀ fuel index i (t2 : Hashmap),
      hrun fuel (HCall.insWalk t key value index i) = some t2 →
      t2.size = t.size ∧ t2.base_size = t.base_size ∧ t2.count ≤ t.count + 1 := by
  intro fuel
  induction fuel with
  | zero => intro index i t2 h; exact Option.noConfusion h
  | succ fuel ih =>
    intro index i t2 h
    cases hs : slotAt t index with
    | empty =>
      rw [insWalk_step_empty hs] at h
      cases h
      exact ⟨rfl, rfl, Nat.mod_le _ _⟩
    | deleted =>
      rw [insWalk_step_deleted hs] at h
      exact ih index i t2 h
    | record k v =>
      by_cases hk : k = key
      · subst hk
        rw [insWalk_step_match hs] at h
        cases h
        exact ⟨rfl, rfl, Nat.le_succ _⟩
      · rw [insWalk_step_mismatch (by simp [slotMismatch, hs, hk])] at h
        exact ih _ _ t2 h

/-- HashmapInsert under a quiet load check never changes size or base
    size, and bumps count at most once. -/
theorem ins_fields {t : Hashmap} {key : Key} {value fuel : ℕ} {t2 : Hashmap}
    (Hload : t.count / t.size ≤ HASHMAP_LOAD_INCREASE)
    (h : hrun fuel (HCall.ins t key value) = some t2) :
    t2.size = t.size ∧ t2.base_size = t.base_size ∧ t2.count ≤ t.count + 1 := by
  cases fuel with
  | zero => exact Option.noConfusion h
  | succ fuel =>
    rw [ins_step_noResize Hload] at h
    exact insWalk_fields fuel _ _ t2 h

/-- Number of live records in a slot array. -/
def countRecords (l : List Slot) : ℕ :=
  l.countP fun s => match s with | Slot.record _ _ => true | _ => false

theorem countRecords_cons_record {k : Key} {v : ℕ} {rest : List Slot} :
    countRecords (Slot.record k v :: rest) = countRecords rest + 1 := by
  simp [countRecords]

theorem countRecords_cons_empty {rest : List Slot} :
    countRecords (Slot.empty :: rest) = countRecords rest := by
  simp [countRecords]

theorem countRecords_cons_deleted {rest : List Slot} :
    countRecords (Slot.deleted :: rest) = countRecords rest := by
  simp [countRecords]

/-- The record-copy loop of HashmapResize keeps the size and base size of
    the destination table, as long as the records it inserts cannot drive
    the destination's integer load check over the threshold. -/
theorem fold_fields : ∀ (fuel : ℕ) (slots : List Slot) (acc nt : Hashmap),
    hrun fuel (HCall.fold slots acc) = some nt →
    0 < acc.size →
    acc.count + countRecords slots ≤ HASHMAP_LOAD_INCREASE * acc.size →
    nt.size = acc.size ∧ nt.base_size = acc.base_size := by
  intro fuel
  induction fuel with
  | zero => intro slots acc nt h; exact Option.noConfusion h
  | succ fuel ih =>
    intro slots acc nt h hpos hload
    cases slots with
    | nil =>
      rw [show hrun (fuel + 1) (HCall.fold [] acc) = some acc from rfl] at h
      cases h
      exact ⟨rfl, rfl⟩
    | cons s rest =>
      cases s with
      | record k v =>
        rw [show hrun (fuel + 1) (HCall.fold (Slot.record k v :: rest) acc)
            = (match hrun fuel (HCall.ins acc k v) with
               | none => none
               | some acc2 => hrun fuel (HCall.fold rest acc2)) from rfl] at h
        rw [countRecords_cons_record] at hload
        cases hins : hrun fuel (HCall.ins acc k v) with
        | none => rw [hins] at h; exact Option.noConfusion h
        | some acc2 =>
          rw [hins] at h
          have hdiv : acc.count / acc.size ≤ HASHMAP_LOAD_INCREASE := by
            have hle : acc.count ≤ HASHMAP_LOAD_INCREASE * acc.size := by omega
            calc acc.count / acc.size
                ≤ HASHMAP_LOAD_INCREASE * acc.size / acc.size := Nat.div_le_div_right hle
              _ = HASHMAP_LOAD_INCREASE := Nat.mul_div_cancel _ hpos
          obtain ⟨hsz, hbs, hcnt⟩ := ins_fields hdiv hins
          have hres := ih rest acc2 nt h (hsz ▸ hpos) (by rw [hsz]; omega)
          exact ⟨hres.1.trans hsz, hres.2.trans hbs⟩
      | empty =>
        rw [show hrun (fuel + 1) (HCall.fold (Slot.empty :: rest) acc)
            = hrun fuel (HCall.fold rest acc) from rfl] at h
        rw [countRecords_cons_empty] at hload
        exact ih rest acc nt h hpos hload
      | deleted =>
        rw [show hrun (fuel + 1) (HCall.fold (Slot.deleted :: rest) acc)
            = hrun fuel (HCall.fold rest acc) from rfl] at h
        rw [countRecords_cons_deleted] at hload
        exact ih rest acc nt h hpos hload

/-- A successful HashmapResize to a base size between 11 and 2^31 (so
    the wrapping NextPrime search stops before the u32 maximum), on a
    table with at most 770 live records, yields actual size
    NextPrime(base). -/
theorem rsz_fields {t : Hashmap} {base fuel : ℕ} {t2 : Hashmap}
    (hb : HASHMAP_INITIAL_BASE_SIZE ≤ base) (hbH : base ≤ 2 ^ 31)
    (hcnt : countRecords t.records
      ≤ HASHMAP_LOAD_INCREASE * HASHMAP_INITIAL_BASE_SIZE)
    (h : hrun fuel (HCall.rsz t base) = some t2) :
    t2.size = NextPrime base ∧ t2.base_size = base := by
  have hb32 : base < U32_MOD := by
    have : (2 : ℕ) ^ 31 < U32_MOD := by decide
    omega
  cases fuel with
  | zero => exact Option.noConfusion h
  | succ fuel =>
    rw [show hrun (fuel + 1) (HCall.rsz t base)
        = (if base < HASHMAP_INITIAL_BASE_SIZE then some t
           else match hrun fuel (HCall.fold t.records (HashmapCreate base)) with
             | none => none
             | some nt => some { base_size := nt.base_size, size := nt.size
                                 count := nt.count, records := nt.records }) from rfl] at h
    rw [if_neg (Nat.not_lt.mpr hb)] at h
    have hacc_size : (HashmapCreate base).size = NextPrime base := by
      show NextPrime (base % U32_MOD) = NextPrime base
      rw [Nat.mod_eq_of_lt hb32]
    have hacc_pos : 0 < (HashmapCreate base).size := by
      rw [hacc_size]; have := three_le_NextPrime base; omega
    cases hfold : hrun fuel (HCall.fold t.records (HashmapCreate base)) with
    | none => rw [hfold] at h; exact Option.noConfusion h
    | some nt =>
      rw [hfold] at h
      have hload : (HashmapCreate base).count + countRecords t.records
          ≤ HASHMAP_LOAD_INCREASE * (HashmapCreate base).size := by
        show 0 + countRecords t.records ≤ HASHMAP_LOAD_INCREASE * (HashmapCreate base).size
        have h11 : HASHMAP_INITIAL_BASE_SIZE ≤ (HashmapCreate base).size := by
          rw [hacc_size]
          exact Nat.le_trans hb (le_NextPrime_of_le_half hbH)
        have := Nat.mul_le_mul_left HASHMAP_LOAD_INCREASE h11
        omega
      obtain ⟨hsz, hbs⟩ := fold_fields fuel t.records (HashmapCreate base) nt hfold
        hacc_pos hload
      cases h
      exact ⟨hsz.trans hacc_size, hbs⟩

/-- C4, counterexample: HashmapCreate(9) has actual size 9 (the buggy
    IsPrime accepts 9, since its trial loop stops before reaching 3), and
    9 is not prime; HashmapCreate(0) has actual size 3 (IsPrime rejects
    2), below the initial base size 11.  Both falsify the unrestricted
    prime-and-at-least-11 invariant. -/
theorem C4_counterexample :
    (HashmapCreate 9).size = 9 ∧ ¬ Nat.Prime 9
    ∧ (HashmapCreate 0).size = 3
    ∧ (HashmapCreate 0).size < HASHMAP_INITIAL_BASE_SIZE :=
  ⟨by decide, by norm_num, by decide, by decide⟩

/-- C4 (amended): after HashmapCreate(b) the actual size is
    NextPrime((u32)b) (the wrapping u32 search), which passes the code's
    IsPrime test and is at least 3, and is at least (u32)b whenever
    (u32)b ≤ 2^31 (so the search stops before wrapping past the u32
    maximum) — but it need not be mathematically prime nor at least 11;
    HashmapResize refuses base sizes below 11 (leaving the table
    untouched); and any successful resize to base b with 11 ≤ b ≤ 2^31
    (on a table with at most 770 live records, so the copy inserts
    cannot trigger a nested resize) gives actual size NextPrime(b) ≥ 11,
    again passing the code's IsPrime test. -/
theorem C4_prime_size_amended :
    (∀ b : ℕ, (HashmapCreate b).size = NextPrime (b % U32_MOD)
      ∧ IsPrime (HashmapCreate b).size = true
      ∧ 3 ≤ (HashmapCreate b).size
      ∧ (b % U32_MOD ≤ 2 ^ 31 → b % U32_MOD ≤ (HashmapCreate b).size))
    ∧ (∀ (fuel : ℕ) (t t2 : Hashmap) (b : ℕ), b < HASHMAP_INITIAL_BASE_SIZE →
        HashmapResize fuel t b = some t2 → t2 = t)
    ∧ (∀ (fuel : ℕ) (t t2 : Hashmap) (b : ℕ),
        HASHMAP_INITIAL_BASE_SIZE ≤ b → b ≤ 2 ^ 31 →
        countRecords t.records
          ≤ HASHMAP_LOAD_INCREASE * HASHMAP_INITIAL_BASE_SIZE →
        HashmapResize fuel t b = some t2 →
        t2.size = NextPrime b ∧ t2.base_size = b
          ∧ HASHMAP_INITIAL_BASE_SIZE ≤ t2.size ∧ IsPrime t2.size = true) := by
  refine ⟨?_, ?_, ?_⟩
  · intro b
    exact ⟨rfl, IsPrime_NextPrime _, three_le_NextPrime _,
      fun hb => le_NextPrime_of_le_half hb⟩
  · intro fuel t t2 b hb h
    cases fuel with
    | zero => exact Option.noConfusion h
    | succ fuel =>
      rw [HashmapResize, rsz_small hb] at h
      cases h
      rfl
  · intro fuel t t2 b hb hbH hcnt h
    obtain ⟨hsz, hbs⟩ := rsz_fields hb hbH hcnt h
    refine ⟨hsz, hbs, ?_, ?_⟩
    · rw [hsz]
      exact Nat.le_trans hb (le_NextPrime_of_le_half hbH)
    · rw [hsz]
      exact IsPrime_NextPrime b

/-- Witness for C4_prime_size_amended: creation at base 7 and a resize of
    the fresh base-11 table to base 11. -/
theorem C4_prime_size_amended_witness :
    ((11:ℕ) ≤ 11 ∧ (11:ℕ) ≤ 2 ^ 31
      ∧ countRecords cleanTable.records
          ≤ HASHMAP_LOAD_INCREASE * HASHMAP_INITIAL_BASE_SIZE
      ∧ HashmapResize 30 cleanTable 11 = some cleanTable)
    ∧ ((HashmapCreate 7).size = NextPrime (7 % U32_MOD)
        ∧ IsPrime (HashmapCreate 7).size = true)
    ∧ (cleanTable.size = NextPrime 11 ∧ cleanTable.base_size = 11
        ∧ HASHMAP_INITIAL_BASE_SIZE ≤ cleanTable.size
        ∧ IsPrime cleanTable.size = true) :=
  ⟨⟨by decide, by decide, by decide, by decide⟩,
   ⟨(C4_prime_size_amended.1 7).1, (C4_prime_size_amended.1 7).2.1⟩,
   C4_prime_size_amended.2.2 30 cleanTable cleanTable 11 (by decide) (by decide)
     (by decide) (by decide)⟩

theorem wrap_sub_one {n : ℕ} (h1 : 1 ≤ n) (h2 : n < U64_MOD) :
    (n + (U64_MOD - 1)) % U64_MOD = n - 1 := by
  have hW : 0 < U64_MOD := by decide
  have hsplit : n + (U64_MOD - 1) = U64_MOD + (n - 1) := by omega
  rw [hsplit, Nat.add_mod_left, Nat.mod_eq_of_lt (by omega)]

theorem vecOutOfBounds_eq {size i : ℕ} (h1 : 1 ≤ size) (h2 : size < U64_MOD) :
    vecOutOfBounds size i = decide (size - 1 < i) := by
  rw [vecOutOfBounds, wrap_sub_one h1 h2]

theorem shiftIter_length : ∀ (n i : ℕ) (l : List (Option ℕ)),
    (shiftIter n i l).length = l.length := by
  intro n
  induction n with
  | zero => intro i l; rfl
  | succ n ih => intro i l; rw [shiftIter, ih]; simp

/-- The invariant the amended C8 establishes: the size never exceeds the
    capacity, the capacity is at least 1 and below the size_t wrap, and
    the buffer length equals the capacity. -/
def VectorInv (v : Vector) : Prop :=
  v.size ≤ v.capacity ∧ 1 ≤ v.capacity ∧ v.data.length = v.capacity
    ∧ v.capacity < U64_MOD

instance (v : Vector) : Decidable (VectorInv v) := by
  unfold VectorInv
  infer_instance

theorem VectorResize_fields {v : Vector} {c : ℕ} (hc1 : 1 ≤ c) :
    (VectorResize v c).capacity = c ∧ (VectorResize v c).size = v.size
      ∧ (VectorResize v c).data.length = c := by
  rw [VectorResize, if_neg (by omega)]
  refine ⟨rfl, rfl, ?_⟩
  simp only [List.length_append, List.length_take, List.length_replicate]
  omega

theorem VectorResize_inv {v : Vector} {c : ℕ} (hv : VectorInv v) (hc : v.size ≤ c)
    (hcW : c < U64_MOD) : VectorInv (VectorResize v c) := by
  obtain ⟨h1, h2, h3, h4⟩ := hv
  by_cases hc1 : c < 1
  · rw [VectorResize, if_pos hc1]
    exact ⟨h1, h2, h3, h4⟩
  · obtain ⟨hcap, hsz, hlen⟩ := VectorResize_fields (v := v) (c := c) (by omega)
    exact ⟨by rw [hcap, hsz]; exact hc, by omega, by rw [hlen, hcap], by omega⟩

theorem VectorPush_inv {v : Vector} {x : Option ℕ} (hv : VectorInv v)
    (hcap : v.capacity * 2 < U64_MOD) :
    ∃ v2, VectorPush v x = some v2 ∧ VectorInv v2 := by
  obtain ⟨h1, h2, h3, h4⟩ := hv
  simp only [VectorPush]
  by_cases hfull : v.capacity = v.size
  · rw [if_pos hfull]
    have hm : v.capacity * 2 % U64_MOD = v.capacity * 2 := Nat.mod_eq_of_lt hcap
    rw [hm]
    obtain ⟨hcap2, hsz2, hlen2⟩ := VectorResize_fields (v := v) (c := v.capacity * 2)
      (by omega)
    have hlt : (VectorResize v (v.capacity * 2)).size
        < (VectorResize v (v.capacity * 2)).data.length := by
      rw [hsz2, hlen2]; omega
    rw [if_pos hlt]
    refine ⟨_, rfl, ?_, ?_, ?_, ?_⟩
    · show ((VectorResize v (v.capacity * 2)).size + 1) % U64_MOD
        ≤ (VectorResize v (v.capacity * 2)).capacity
      rw [hsz2, hcap2, Nat.mod_eq_of_lt (by omega)]
      omega
    · show 1 ≤ (VectorResize v (v.capacity * 2)).capacity
      rw [hcap2]; omega
    · show ((VectorResize v (v.capacity * 2)).data.set
        (VectorResize v (v.capacity * 2)).size x).length
        = (VectorResize v (v.capacity * 2)).capacity
      rw [List.length_set, hlen2, hcap2]
    · show (VectorResize v (v.capacity * 2)).capacity < U64_MOD
      rw [hcap2]; exact hcap
  · rw [if_neg hfull]
    have hlt : v.size < v.data.length := by rw [h3]; omega
    rw [if_pos hlt]
    refine ⟨_, rfl, ?_, h2, ?_, h4⟩
    · show (v.size + 1) % U64_MOD ≤ v.capacity
      rw [Nat.mod_eq_of_lt (by omega)]
      omega
    · show (v.data.set v.size x).length = v.capacity
      rw [List.length_set, h3]

theorem VectorSet_inv {v : Vector} {i : ℕ} {x : Option ℕ}
    (hv : VectorInv v) (hsz : 1 ≤ v.size) :
    ∃ v2, VectorSet v i x = some v2 ∧ VectorInv v2 := by
  obtain ⟨h1, h2, h3, h4⟩ := hv
  have hszW : v.size < U64_MOD := by omega
  rw [VectorSet, vecOutOfBounds_eq hsz hszW]
  by_cases hoob : v.size - 1 < i
  · rw [if_pos (by simpa using hoob)]
    exact ⟨v, rfl, h1, h2, h3, h4⟩
  · rw [if_neg (by simpa using hoob)]
    have hilt : i < v.data.length := by rw [h3]; omega
    rw [if_pos hilt]
    exact ⟨_, rfl, h1, h2, by rw [List.length_set, h3], h4⟩

theorem VectorDelete_inv {v : Vector} {i : ℕ} (hv : VectorInv v) (hsz : 1 ≤ v.size) :
    ∃ v2, VectorDelete v i = some v2 ∧ VectorInv v2 := by
  obtain ⟨h1, h2, h3, h4⟩ := hv
  have hszW : v.size < U64_MOD := by omega
  rw [VectorDelete, vecOutOfBounds_eq hsz hszW]
  by_cases hoob : v.size - 1 < i
  · rw [if_pos (by simpa using hoob)]
    exact ⟨v, rfl, h1, h2, h3, h4⟩
  · rw [if_neg (by simpa using hoob), if_neg (by omega : ¬ v.size = 0)]
    refine ⟨_, rfl, ?_⟩
    have hd1len : (shiftIter (v.size - 1) 0 (v.data.set i none)).length = v.capacity := by
      rw [shiftIter_length, List.length_set, h3]
    dsimp only
    split
    · rename_i hcond
      refine VectorResize_inv
        ⟨(by omega : v.size - 1 ≤ v.capacity), h2, hd1len, h4⟩ ?_
        (by omega : v.capacity / 2 < U64_MOD)
      show v.size - 1 ≤ v.capacity / 2
      omega
    · exact ⟨(by omega : v.size - 1 ≤ v.capacity), h2, hd1len, h4⟩

/-- C8, counterexample.  First part: pushing two elements into a fresh
    vector and deleting index 0 leaves a non-empty vector (size 1) with
    capacity 2: the shrink in VectorDelete has no minimum-capacity guard,
    so "capacity ≥ 4 once non-empty" is false.  Second part: VectorResize
    honours any requested capacity ≥ 1, so resizing a size-3 vector to
    capacity 1 leaves size 3 > capacity 1: VectorResize does not preserve
    size ≤ capacity. -/
theorem C8_counterexample :
    ((do
      let v1 ← VectorPush VectorCreate (some 10)
      let v2 ← VectorPush v1 (some 20)
      VectorDelete v2 0) = some { capacity := 2, size := 1, data := [some 20, none] })
    ∧ (0 : ℕ) < 1 ∧ (2 : ℕ) < VECTOR_INITIAL_CAPACITY
    ∧ VectorResize { capacity := 4, size := 3, data := [some 1, some 2, some 3, none] } 1
        = { capacity := 1, size := 3, data := [some 1] }
    ∧ ¬ (3 : ℕ) ≤ 1 := by
  decide

/-- C8 (amended): VectorCreate establishes, and VectorPush, VectorSet and
    VectorDelete preserve (for non-empty vectors; for Push, while the
    doubled capacity stays below 2^64), the invariant
    size ≤ capacity ∧ 1 ≤ capacity ∧ buffer length = capacity; and
    VectorResize preserves it exactly when the requested capacity is at
    least the current size.  The claimed minimum of 4 for non-empty
    vectors is false (Delete can shrink to capacity 2), as is invariant
    preservation by unrestricted VectorResize. -/
theorem C8_vector_invariant_amended :
    VectorInv VectorCreate
    ∧ (∀ (v : Vector) (x : Option ℕ), VectorInv v → v.capacity * 2 < U64_MOD →
        ∃ v2, VectorPush v x = some v2 ∧ VectorInv v2)
    ∧ (∀ (v : Vector) (i : ℕ) (x : Option ℕ), VectorInv v → 1 ≤ v.size →
        ∃ v2, VectorSet v i x = some v2 ∧ VectorInv v2)
    ∧ (∀ (v : Vector) (i : ℕ), VectorInv v → 1 ≤ v.size →
        ∃ v2, VectorDelete v i = some v2 ∧ VectorInv v2)
    ∧ (∀ (v : Vector) (c : ℕ), VectorInv v → v.size ≤ c → c < U64_MOD →
        VectorInv (VectorResize v c)) :=
  ⟨by decide,
   fun _ _ hv h => VectorPush_inv hv h,
   fun _ _ _ hv h => VectorSet_inv hv h,
   fun _ _ hv h => VectorDelete_inv hv h,
   fun _ _ hv h1 h2 => VectorResize_inv hv h1 h2⟩

/-- Witness for C8_vector_invariant_amended: a push and a delete on a
    two-element vector of capacity 4. -/
theorem C8_vector_invariant_amended_witness :
    (VectorInv { capacity := 4, size := 2, data := [some 1, some 2, none, none] }
      ∧ (4 : ℕ) * 2 < U64_MOD ∧ (1 : ℕ) ≤ 2)
    ∧ (∃ v2, VectorPush { capacity := 4, size := 2, data := [some 1, some 2, none, none] }
        (some 9) = some v2 ∧ VectorInv v2)
    ∧ (∃ v2, VectorDelete { capacity := 4, size := 2, data := [some 1, some 2, none, none] }
        0 = some v2 ∧ VectorInv v2) :=
  ⟨⟨by decide, by decide, by decide⟩,
   C8_vector_invariant_amended.2.1 _ (some 9) (by decide) (by decide),
   C8_vector_invariant_amended.2.2.2.1 _ 0 (by decide) (by decide)⟩

end Karte
